import Mathlib

/-!
Verification of the data-analysis helper functions of the pyRiemann-qiskit
repository: the `correlation_ratio` and `clean` functions of the Titanic
tutorial examples, and the `requires_module` decorator and `get_labels`
fixture of the test suite.

Numeric measurements are embedded as rationals (exact arithmetic), tables as
association lists from column names to columns of optional cell values, and
the in-place mutation of `clean` as explicit state passing over a heap of
tables.
-/

namespace Titanic

variable {α : Type*} [DecidableEq α] {β : Type*} [DecidableEq β]

/-- Helper for the factorization step of `correlation_ratio`: the distinct
values of a list in order of first appearance, carrying the values already
seen.  This mirrors the category codes `0 .. max(fcat)` that `pd.factorize`
assigns in order of first appearance. -/
def distinctsAux [DecidableEq α] (seen : List α) : List α → List α
  | [] => []
  | c :: rest =>
      if c ∈ seen then distinctsAux seen rest
      else c :: distinctsAux (c :: seen) rest

/-- Distinct values of a list, in order of first appearance. -/
def distincts (l : List α) : List α := distinctsAux [] l

/-- The measurements whose position carries category `c`:
`measurements[np.argwhere(fcat == i).flatten()]` for the code `i` of `c`. -/
def groupVals (cats : List α) (meas : List ℚ) (c : α) : List ℚ :=
  ((cats.zip meas).filter (fun p => p.1 = c)).map Prod.snd

/-- Arithmetic mean of a list of rationals (`np.average`). -/
def avg (l : List ℚ) : ℚ := l.sum / l.length

/-- Entry `n_array[i]` of the source: the size of category `c`, as a rational. -/
def nCat (cats : List α) (meas : List ℚ) (c : α) : ℚ :=
  ((groupVals cats meas c).length : ℚ)

/-- Entry `y_avg_array[i]` of the source: the mean of category `c`. -/
def yAvgCat (cats : List α) (meas : List ℚ) (c : α) : ℚ :=
  avg (groupVals cats meas c)

/-- The grand mean `y_total_avg` of the source: the count-weighted mean of the
category means. -/
def yTotalAvg (cats : List α) (meas : List ℚ) : ℚ :=
  ((distincts cats).map (fun c => yAvgCat cats meas c * nCat cats meas c)).sum
    / ((distincts cats).map (fun c => nCat cats meas c)).sum

/-- The `numerator` of the source, parametrized by the centre `mu`:
the count-weighted sum of squared deviations of the category means from `mu`. -/
def betweenSSWith (cats : List α) (meas : List ℚ) (mu : ℚ) : ℚ :=
  ((distincts cats).map (fun c => nCat cats meas c * (yAvgCat cats meas c - mu) ^ 2)).sum

/-- The `denominator` of the source, parametrized by the centre `mu`:
the sum of squared deviations of the measurements from `mu`. -/
def totalSSWith (meas : List ℚ) (mu : ℚ) : ℚ :=
  (meas.map (fun m => (m - mu) ^ 2)).sum

/-- Embedding of `correlation_ratio(categories, measurements)` of
`examples/plot_tutorial_quantum_svm_titanic_data.py` (and identically of
`examples/tutorial_quantum_svm_titanic_data.py`): factorize the categories,
compute per-category means and counts, the weighted grand mean, the
between-group and total sums of squares, and return their ratio, guarded to
`0.0` when the numerator vanishes. -/
def correlation_ratio (cats : List α) (meas : List ℚ) : ℚ :=
  if betweenSSWith cats meas (yTotalAvg cats meas) = 0 then 0
  else betweenSSWith cats meas (yTotalAvg cats meas)
    / totalSSWith meas (yTotalAvg cats meas)

/-- Specification-side grand mean: the plain mean of all measurements. -/
def grandMean (meas : List ℚ) : ℚ := meas.sum / meas.length

/-- Specification-side between-group sum of squares, centred at the plain
grand mean. -/
def betweenSS (cats : List α) (meas : List ℚ) : ℚ :=
  betweenSSWith cats meas (grandMean meas)

/-- Specification-side total sum of squares about the grand mean. -/
def totalSS (meas : List ℚ) : ℚ := totalSSWith meas (grandMean meas)

/-- Within-group sum of squares: each measurement's squared deviation from its
own category mean. -/
def withinSS (cats : List α) (meas : List ℚ) : ℚ :=
  ((distincts cats).map
    (fun c => totalSSWith (groupVals cats meas c) (yAvgCat cats meas c))).sum

/-- Cell values of the Titanic table: numeric or string. -/
inductive Val
  | num (q : ℚ)
  | str (s : String)
deriving DecidableEq

/-- A column is a list of optional cells; `none` is a missing value (NaN). -/
abbrev Col := List (Option Val)

/-- A data frame: an association list of column names to columns. -/
abbrev Table := List (String × Col)

/-- Does the table have a column of this name? -/
def hasCol (t : Table) (n : String) : Bool := t.any (fun c => c.1 = n)

/-- The first column of the given name, if any (`data[name]`). -/
def getCol (t : Table) (n : String) : Option Col :=
  (t.find? (fun c => c.1 = n)).map Prod.snd

/-- The `droppable_columns` of the source. -/
def droppable : List String := ["Name", "Ticket", "Cabin"]

/-- Embedding of `data.drop(names, axis=1)`: a KeyError (`none`) when a label
is absent, otherwise a copy without the columns of the dropped names. -/
def dropColumns (names : List String) (t : Table) : Option Table :=
  if names.all (fun n => hasCol t n) then
    some (t.filter (fun c => !names.contains c.1))
  else none

/-- Filling a column: missing entries replaced by `v`, present entries kept. -/
def fillCol (v : Val) (col : Col) : Col := col.map (fun o => some (o.getD v))

/-- Embedding of `data[name].fillna(v, inplace=True)`: a KeyError (`none`)
when the column is absent, otherwise every column of that name is filled. -/
def fillna (n : String) (v : Val) (t : Table) : Option Table :=
  if hasCol t n then
    some (t.map (fun c => if c.1 = n then (c.1, fillCol v c.2) else c))
  else none

/-- The numeric content of a cell, when present. -/
def numVal : Option Val → Option ℚ
  | some (Val.num q) => some q
  | _ => none

/-- Embedding of `series.mean()` (pandas skips missing values): the mean of
the present numeric entries, or `none` (NaN) when there are none. -/
def colMean (col : Col) : Option ℚ :=
  if (col.filterMap numVal).length = 0 then none
  else some ((col.filterMap numVal).sum / (col.filterMap numVal).length)

/-- Embedding of `data[name].fillna(data[name].mean(), inplace=True)`: a
KeyError (`none`) when the column is absent; when the mean is NaN (no numeric
entry) filling with it leaves every missing entry missing, so the table is
unchanged. -/
def fillnaMean (n : String) (t : Table) : Option Table :=
  match getCol t n with
  | none => none
  | some col =>
      match colMean col with
      | none => some t
      | some m => fillna n (Val.num m) t

/-- Embedding of `clean(data)` of
`examples/plot_tutorial_quantum_svm_titanic_data.py` (and identically of
`examples/tutorial_quantum_svm_titanic_data.py`): drop Name/Ticket/Cabin,
fill Age with its mean, Embarked with "U", SibSp and Parch with 0, and Fare
with its mean, in source order. -/
def clean (data : Table) : Option Table :=
  (dropColumns droppable data).bind fun d1 =>
  (fillnaMean "Age" d1).bind fun d2 =>
  (fillna "Embarked" (Val.str "U") d2).bind fun d3 =>
  (fillna "SibSp" (Val.num 0) d3).bind fun d4 =>
  (fillna "Parch" (Val.num 0) d4).bind fun d5 =>
  fillnaMean "Fare" d5

/-- Heap-passing embedding of the imperative body of `clean`: the heap `h`
holds the tables of the Python program and `r` is the caller's reference to
`data`.  The assignment `data = data.drop(...)` allocates a fresh table at
the end of the heap and rebinds the local name `data` to it; each
`fillna(..., inplace=True)` then writes through that local reference `r1`.
The caller's table at `r` is never written. -/
def cleanProg (h : List Table) (r : Nat) : Option (List Table × Nat) :=
  match dropColumns droppable (h.getD r []) with
  | none => none
  | some t1 =>
      match fillnaMean "Age" ((h ++ [t1]).getD h.length []) with
      | none => none
      | some t2 =>
          match fillna "Embarked" (Val.str "U")
              (((h ++ [t1]).set h.length t2).getD h.length []) with
          | none => none
          | some t3 =>
              match fillna "SibSp" (Val.num 0)
                  ((((h ++ [t1]).set h.length t2).set h.length t3).getD
                    h.length []) with
              | none => none
              | some t4 =>
                  match fillna "Parch" (Val.num 0)
                      (((((h ++ [t1]).set h.length t2).set h.length t3).set
                          h.length t4).getD h.length []) with
                  | none => none
                  | some t5 =>
                      match fillnaMean "Fare"
                          ((((((h ++ [t1]).set h.length t2).set h.length
                              t3).set h.length t4).set h.length t5).getD
                            h.length []) with
                      | none => none
                      | some t6 =>
                          some ((((((h ++ [t1]).set h.length t2).set h.length
                              t3).set h.length t4).set h.length t5).set
                                h.length t6,
                            h.length)

/-- Relation on cells: a non-missing entry keeps its original value. -/
def entryKeeps (o o' : Option Val) : Prop := o.isSome → o' = o

/-- Relation on columns: same length, and every non-missing entry keeps its
original value. -/
def colKeeps (c d : Col) : Prop := List.Forall₂ entryKeeps c d

/-- Relation on tables: columns correspond one to one, keeping their names
and their non-missing entries. -/
def tableKeeps (t u : Table) : Prop :=
  List.Forall₂ (fun c d => c.1 = d.1 ∧ colKeeps c.2 d.2) t u

/-- Result of the `requires_module` decorator of `tests/conftest.py`: whether
the test is marked skipped, and the recorded reason. -/
structure SkipMark where
  skip : Bool
  reason : String

/-- Embedding of `requires_module(function, name, call)` of
`tests/conftest.py`.  The outcome of `exec(call)` is an explicit input:
`none` when the import succeeds, `some exc` when it raises an exception whose
text is `exc`.  On an exception the reason is extended with the exception
text unless that text is empty or the bare "No module named name" message. -/
def requires_module (funcName : String) (name : String)
    (outcome : Option String) : SkipMark :=
  let reason := "Test " ++ funcName ++ " skipped, requires " ++ name ++ "."
  match outcome with
  | some exc =>
      { skip := true
        reason :=
          if 0 < exc.length ∧ exc ≠ "No module named " ++ name then
            reason ++ " Got exception (" ++ exc ++ ")"
          else reason }
  | none => { skip := false, reason := reason }

/-- Embedding of the function returned by the `get_labels` fixture of
`tests/conftest.py`: `np.arange(n_classes).repeat(n_matrices // n_classes)`,
that is each label `0 .. n_classes - 1` repeated `n_matrices / n_classes`
times, consecutively. -/
def get_labels (nMatrices nClasses : Nat) : List Nat :=
  (List.range nClasses).flatMap (fun i => List.replicate (nMatrices / nClasses) i)

/-- A concrete two-row Titanic-like table with missing entries, used to
instantiate the `clean` theorems. -/
def sampleTable : Table :=
  [("Name", [some (Val.str "A"), some (Val.str "B")]),
   ("Ticket", [some (Val.num 1), none]),
   ("Cabin", [none, none]),
   ("Age", [some (Val.num 20), none]),
   ("Fare", [none, some (Val.num 8)]),
   ("Embarked", [some (Val.str "S"), none]),
   ("SibSp", [none, some (Val.num 1)]),
   ("Parch", [some (Val.num 0), none])]

/-- `sampleTable` after dropping Name, Ticket and Cabin. -/
def sampleDropped : Table :=
  [("Age", [some (Val.num 20), none]),
   ("Fare", [none, some (Val.num 8)]),
   ("Embarked", [some (Val.str "S"), none]),
   ("SibSp", [none, some (Val.num 1)]),
   ("Parch", [some (Val.num 0), none])]

/-- `sampleDropped` after filling Age with its mean `20`. -/
def sampleAgeFilled : Table :=
  [("Age", [some (Val.num 20), some (Val.num 20)]),
   ("Fare", [none, some (Val.num 8)]),
   ("Embarked", [some (Val.str "S"), none]),
   ("SibSp", [none, some (Val.num 1)]),
   ("Parch", [some (Val.num 0), none])]

/-- The previous table after filling Embarked with "U". -/
def sampleEmbarkedFilled : Table :=
  [("Age", [some (Val.num 20), some (Val.num 20)]),
   ("Fare", [none, some (Val.num 8)]),
   ("Embarked", [some (Val.str "S"), some (Val.str "U")]),
   ("SibSp", [none, some (Val.num 1)]),
   ("Parch", [some (Val.num 0), none])]

/-- The previous table after filling SibSp with `0`. -/
def sampleSibSpFilled : Table :=
  [("Age", [some (Val.num 20), some (Val.num 20)]),
   ("Fare", [none, some (Val.num 8)]),
   ("Embarked", [some (Val.str "S"), some (Val.str "U")]),
   ("SibSp", [some (Val.num 0), some (Val.num 1)]),
   ("Parch", [some (Val.num 0), none])]

/-- The previous table after filling Parch with `0`. -/
def sampleParchFilled : Table :=
  [("Age", [some (Val.num 20), some (Val.num 20)]),
   ("Fare", [none, some (Val.num 8)]),
   ("Embarked", [some (Val.str "S"), some (Val.str "U")]),
   ("SibSp", [some (Val.num 0), some (Val.num 1)]),
   ("Parch", [some (Val.num 0), some (Val.num 0)])]

/-- The result of `clean` on `sampleTable`: Fare filled with its mean `8`. -/
def sampleCleaned : Table :=
  [("Age", [some (Val.num 20), some (Val.num 20)]),
   ("Fare", [some (Val.num 8), some (Val.num 8)]),
   ("Embarked", [some (Val.str "S"), some (Val.str "U")]),
   ("SibSp", [some (Val.num 0), some (Val.num 1)]),
   ("Parch", [some (Val.num 0), some (Val.num 0)])]

section DistinctsLemmas

lemma mem_distinctsAux {seen : List α} {l : List α} {a : α} :
    a ∈ distinctsAux seen l ↔ a ∈ l ∧ a ∉ seen := by
  induction l generalizing seen with
  | nil => simp [distinctsAux]
  | cons c rest ih =>
      by_cases hc : c ∈ seen
      · simp only [distinctsAux, if_pos hc, ih, List.mem_cons]
        constructor
        · rintro ⟨h1, h2⟩; exact ⟨Or.inr h1, h2⟩
        · rintro ⟨h1 | h1, h2⟩
          · exact absurd (h1 ▸ hc) h2
          · exact ⟨h1, h2⟩
      · simp only [distinctsAux, if_neg hc, List.mem_cons, ih]
        constructor
        · rintro (rfl | ⟨h1, h2⟩)
          · exact ⟨Or.inl rfl, hc⟩
          · refine ⟨Or.inr h1, fun hs => h2 (Or.inr hs)⟩
        · rintro ⟨rfl | h1, h2⟩
          · exact Or.inl rfl
          · by_cases hac : a = c
            · exact Or.inl hac
            · exact Or.inr ⟨h1, fun hs => hs.elim hac h2⟩

lemma nodup_distinctsAux {seen : List α} {l : List α} :
    (distinctsAux seen l).Nodup := by
  induction l generalizing seen with
  | nil => simp [distinctsAux]
  | cons c rest ih =>
      by_cases hc : c ∈ seen
      · simpa [distinctsAux, if_pos hc] using ih
      · simp only [distinctsAux, if_neg hc, List.nodup_cons]
        refine ⟨fun hmem => ?_, ih⟩
        exact (mem_distinctsAux.mp hmem).2 (List.mem_cons_self _ _)

lemma mem_distincts {l : List α} {a : α} : a ∈ distincts l ↔ a ∈ l := by
  simp [distincts, mem_distinctsAux]

lemma nodup_distincts {l : List α} : (distincts l).Nodup := nodup_distinctsAux

lemma distincts_eq_nil_iff {l : List α} : distincts l = [] ↔ l = [] := by
  constructor
  · intro h
    cases l with
    | nil => rfl
    | cons c rest =>
        have : c ∈ distincts (c :: rest) := mem_distincts.mpr (List.mem_cons_self _ _)
        rw [h] at this
        cases this
  · rintro rfl; rfl

end DistinctsLemmas

section SumLemmas

variable {M : Type*} [AddCommMonoid M]

lemma sum_map_ite_of_not_mem {cs : List α} {a : α} (h : a ∉ cs) (x : M) :
    (cs.map (fun c => if a = c then x else 0)).sum = 0 := by
  induction cs with
  | nil => simp
  | cons c rest ih =>
      have hac : a ≠ c := fun hh => h (hh ▸ List.mem_cons_self _ _)
      have hrest : a ∉ rest := fun hh => h (List.mem_cons_of_mem _ hh)
      simp [hac, ih hrest]

lemma sum_map_ite_of_mem {cs : List α} (hnd : cs.Nodup) {a : α} (ha : a ∈ cs) (x : M) :
    (cs.map (fun c => if a = c then x else 0)).sum = x := by
  induction cs with
  | nil => cases ha
  | cons c rest ih =>
      rcases List.mem_cons.mp ha with rfl | hmem
      · have : a ∉ rest := (List.nodup_cons.mp hnd).1
        simp [sum_map_ite_of_not_mem this x]
      · have hac : a ≠ c := fun hh => (List.nodup_cons.mp hnd).1 (hh ▸ hmem)
        simp only [List.map_cons, List.sum_cons, if_neg hac,
          ih (List.nodup_cons.mp hnd).2 hmem, zero_add]

/-- Key partition identity: summing `f` over the groups of a list of keyed
pairs, one group per key, recovers the sum of `f` over the whole list. -/
lemma sum_map_filter_key_partition (cs : List α) (hnd : cs.Nodup)
    (ps : List (α × ℚ)) (hall : ∀ p ∈ ps, p.1 ∈ cs) (f : α × ℚ → M) :
    (cs.map (fun c => ((ps.filter (fun p => p.1 = c)).map f).sum)).sum
      = (ps.map f).sum := by
  induction ps with
  | nil => simp
  | cons p rest ih =>
      have hp : p.1 ∈ cs := hall p (List.mem_cons_self _ _)
      have hrest : ∀ q ∈ rest, q.1 ∈ cs := fun q hq => hall q (List.mem_cons_of_mem _ hq)
      have hfun : (cs.map (fun c => (((p :: rest).filter (fun q => q.1 = c)).map f).sum))
          = (cs.map (fun c => (if p.1 = c then f p else 0)
              + ((rest.filter (fun q => q.1 = c)).map f).sum)) := by
        refine List.map_congr_left (fun c _ => ?_)
        by_cases hpc : p.1 = c
        · simp [List.filter_cons, hpc]
        · simp [List.filter_cons, hpc]
      rw [hfun, List.sum_map_add, sum_map_ite_of_mem hnd hp, ih hrest]
      simp

end SumLemmas

section GroupLemmas

lemma sum_map_one {γ : Type*} (l : List γ) :
    (l.map (fun _ => (1 : ℚ))).sum = (l.length : ℚ) := by
  induction l with
  | nil => simp
  | cons a t ih => simp [ih, add_comm]

lemma zip_keys_mem_distincts {cats : List α} {meas : List ℚ} :
    ∀ p ∈ cats.zip meas, p.1 ∈ distincts cats := by
  rintro ⟨a, b⟩ hp
  exact mem_distincts.mpr (List.of_mem_zip hp).1

lemma groupVals_ne_nil {cats : List α} {meas : List ℚ}
    (hlen : cats.length = meas.length) {c : α} (hc : c ∈ cats) :
    groupVals cats meas c ≠ [] := by
  have hcats : (cats.zip meas).map Prod.fst = cats :=
    List.map_fst_zip cats meas (le_of_eq hlen)
  rw [← hcats] at hc
  rcases List.mem_map.mp hc with ⟨p, hp, hpc⟩
  have hpf : p ∈ (cats.zip meas).filter (fun q => q.1 = c) :=
    List.mem_filter.mpr ⟨hp, by simp [hpc]⟩
  intro hnil
  have : ((cats.zip meas).filter (fun q => q.1 = c)) = [] :=
    List.map_eq_nil_iff.mp hnil
  rw [this] at hpf
  cases hpf

lemma groupVals_sum_eq {cats : List α} {meas : List ℚ} (c : α) :
    (groupVals cats meas c).sum
      = (((cats.zip meas).filter (fun p => p.1 = c)).map Prod.snd).sum := rfl

lemma nCat_eq_sum_one {cats : List α} {meas : List ℚ} (c : α) :
    nCat cats meas c
      = (((cats.zip meas).filter (fun p => p.1 = c)).map (fun _ => (1 : ℚ))).sum := by
  rw [nCat, groupVals, List.length_map, ← sum_map_one]

lemma sum_groupVals_sum {cats : List α} {meas : List ℚ}
    (hlen : cats.length = meas.length) :
    ((distincts cats).map (fun c => (groupVals cats meas c).sum)).sum = meas.sum := by
  have h := sum_map_filter_key_partition (distincts cats) nodup_distincts
    (cats.zip meas) zip_keys_mem_distincts Prod.snd
  have hsnd : (cats.zip meas).map Prod.snd = meas :=
    List.map_snd_zip cats meas (le_of_eq hlen.symm)
  rw [hsnd] at h
  simpa [groupVals_sum_eq] using h

lemma sum_nCat {cats : List α} {meas : List ℚ}
    (hlen : cats.length = meas.length) :
    ((distincts cats).map (fun c => nCat cats meas c)).sum = (meas.length : ℚ) := by
  have h := sum_map_filter_key_partition (distincts cats) nodup_distincts
    (cats.zip meas) zip_keys_mem_distincts (fun _ => (1 : ℚ))
  have hone : ((cats.zip meas).map (fun _ => (1 : ℚ))).sum = (meas.length : ℚ) := by
    rw [sum_map_one, List.length_zip, hlen, Nat.min_self]
  rw [hone] at h
  rw [← h]
  refine congrArg List.sum (List.map_congr_left (fun c _ => ?_))
  exact nCat_eq_sum_one c

lemma avg_mul_length {l : List ℚ} (h : l ≠ []) : avg l * (l.length : ℚ) = l.sum := by
  have hlen : (l.length : ℚ) ≠ 0 := by
    exact_mod_cast (List.length_pos.mpr h).ne'
  rw [avg, div_mul_cancel₀ _ hlen]

lemma yAvgCat_mul_nCat {cats : List α} {meas : List ℚ}
    (hlen : cats.length = meas.length) {c : α} (hc : c ∈ cats) :
    yAvgCat cats meas c * nCat cats meas c = (groupVals cats meas c).sum :=
  avg_mul_length (groupVals_ne_nil hlen hc)

/-- The count-weighted grand mean of the category means equals the plain grand
mean of all measurements. -/
lemma yTotalAvg_eq_grandMean {cats : List α} {meas : List ℚ}
    (hlen : cats.length = meas.length) :
    yTotalAvg cats meas = grandMean meas := by
  rw [yTotalAvg, grandMean]
  have hnum : ((distincts cats).map (fun c => yAvgCat cats meas c * nCat cats meas c)).sum
      = meas.sum := by
    rw [← sum_groupVals_sum hlen]
    refine congrArg List.sum (List.map_congr_left (fun c hc => ?_))
    exact yAvgCat_mul_nCat hlen (mem_distincts.mp hc)
  rw [hnum, sum_nCat hlen]

/-- Bridge lemma: on equal-length inputs, `correlation_ratio` computes the
between-group over total sum of squares about the plain grand mean, guarded
to `0` when the between-group sum vanishes. -/
lemma correlation_ratio_eq {cats : List α} {meas : List ℚ}
    (hlen : cats.length = meas.length) :
    correlation_ratio cats meas
      = if betweenSS cats meas = 0 then 0
        else betweenSS cats meas / totalSS meas := by
  rw [correlation_ratio, yTotalAvg_eq_grandMean hlen, betweenSS, totalSS]

end GroupLemmas

section Decomposition

lemma sum_sq_expand (l : List ℚ) (t : ℚ) :
    (l.map (fun m => (m - t) ^ 2)).sum
      = (l.map (fun m => m ^ 2)).sum - 2 * t * l.sum + (l.length : ℚ) * t ^ 2 := by
  induction l with
  | nil => simp
  | cons a rest ih =>
      simp only [List.map_cons, List.sum_cons, ih, List.length_cons]
      push_cast
      ring

/-- Within one group, the sum of squared deviations about an arbitrary centre
splits into the deviations about the group mean plus a shift term. -/
lemma totalSSWith_group_decomp (g : List ℚ) (mu : ℚ) :
    totalSSWith g mu
      = totalSSWith g (avg g) + (g.length : ℚ) * (avg g - mu) ^ 2 := by
  rcases eq_or_ne g [] with rfl | hg
  · simp [totalSSWith, avg]
  · have hsum : g.sum = avg g * (g.length : ℚ) := (avg_mul_length hg).symm
    rw [totalSSWith, totalSSWith, sum_sq_expand, sum_sq_expand, hsum]
    ring

lemma sum_totalSSWith_groups {cats : List α} {meas : List ℚ}
    (hlen : cats.length = meas.length) (mu : ℚ) :
    ((distincts cats).map (fun c => totalSSWith (groupVals cats meas c) mu)).sum
      = totalSSWith meas mu := by
  have h := sum_map_filter_key_partition (distincts cats) nodup_distincts
    (cats.zip meas) zip_keys_mem_distincts (fun p => (p.2 - mu) ^ 2)
  have hsnd : (cats.zip meas).map Prod.snd = meas :=
    List.map_snd_zip cats meas (le_of_eq hlen.symm)
  have hzip : ((cats.zip meas).map (fun p => (p.2 - mu) ^ 2)).sum
      = totalSSWith meas mu := by
    have hmm : (cats.zip meas).map (fun p => (p.2 - mu) ^ 2)
        = ((cats.zip meas).map Prod.snd).map (fun m => (m - mu) ^ 2) := by
      rw [List.map_map]
      rfl
    rw [totalSSWith, hmm, hsnd]
  rw [hzip] at h
  rw [← h]
  refine congrArg List.sum (List.map_congr_left (fun c _ => ?_))
  rw [totalSSWith, groupVals, List.map_map]
  rfl

/-- Variance decomposition: the total sum of squares about any centre is the
within-group sum of squares plus the between-group sum of squares. -/
lemma totalSSWith_decomp {cats : List α} {meas : List ℚ}
    (hlen : cats.length = meas.length) (mu : ℚ) :
    totalSSWith meas mu = withinSS cats meas + betweenSSWith cats meas mu := by
  rw [← sum_totalSSWith_groups hlen mu, withinSS, betweenSSWith, ← List.sum_map_add]
  refine congrArg List.sum (List.map_congr_left (fun c _ => ?_))
  rw [totalSSWith_group_decomp (groupVals cats meas c) mu]
  rfl

lemma withinSS_nonneg (cats : List α) (meas : List ℚ) : 0 ≤ withinSS cats meas := by
  refine List.sum_nonneg (fun x hx => ?_)
  rcases List.mem_map.mp hx with ⟨c, _, rfl⟩
  refine List.sum_nonneg (fun y hy => ?_)
  rcases List.mem_map.mp hy with ⟨m, _, rfl⟩
  exact sq_nonneg _

lemma betweenSSWith_nonneg (cats : List α) (meas : List ℚ) (mu : ℚ) :
    0 ≤ betweenSSWith cats meas mu := by
  refine List.sum_nonneg (fun x hx => ?_)
  rcases List.mem_map.mp hx with ⟨c, _, rfl⟩
  exact mul_nonneg (Nat.cast_nonneg _) (sq_nonneg _)

lemma totalSSWith_nonneg (meas : List ℚ) (mu : ℚ) : 0 ≤ totalSSWith meas mu := by
  refine List.sum_nonneg (fun x hx => ?_)
  rcases List.mem_map.mp hx with ⟨m, _, rfl⟩
  exact sq_nonneg _

lemma betweenSS_le_totalSS {cats : List α} {meas : List ℚ}
    (hlen : cats.length = meas.length) :
    betweenSS cats meas ≤ totalSS meas := by
  rw [betweenSS, totalSS, totalSSWith_decomp hlen (grandMean meas)]
  have := withinSS_nonneg cats meas
  linarith

end Decomposition

section Shift

lemma sum_map_const {γ : Type*} (l : List γ) (x : ℚ) :
    (l.map (fun _ => x)).sum = (l.length : ℚ) * x := by
  induction l with
  | nil => simp
  | cons a t ih =>
      simp only [List.map_cons, List.sum_cons, ih, List.length_cons]
      push_cast
      ring

lemma sum_map_add_const (l : List ℚ) (t : ℚ) :
    (l.map (fun m => m + t)).sum = l.sum + (l.length : ℚ) * t := by
  have h := List.sum_map_add (l := l) (f := fun m => m) (g := fun _ => t)
  simp only [sum_map_const] at h
  simp only [List.map_id'] at h
  exact h

lemma avg_shift {l : List ℚ} (h : l ≠ []) (t : ℚ) :
    avg (l.map (fun m => m + t)) = avg l + t := by
  have hlen : (l.length : ℚ) ≠ 0 := by
    exact_mod_cast (List.length_pos.mpr h).ne'
  rw [avg, avg, List.length_map, sum_map_add_const]
  field_simp
  ring

lemma grandMean_shift {meas : List ℚ} (h : meas ≠ []) (t : ℚ) :
    grandMean (meas.map (fun m => m + t)) = grandMean meas + t :=
  avg_shift h t

lemma groupVals_shift (cats : List α) (meas : List ℚ) (t : ℚ) (c : α) :
    groupVals cats (meas.map (fun m => m + t)) c
      = (groupVals cats meas c).map (fun m => m + t) := by
  rw [groupVals, groupVals, List.zip_map_right, List.filter_map,
    List.map_map, List.map_map]
  rfl

lemma nCat_shift (cats : List α) (meas : List ℚ) (t : ℚ) (c : α) :
    nCat cats (meas.map (fun m => m + t)) c = nCat cats meas c := by
  rw [nCat, nCat, groupVals_shift, List.length_map]

lemma yAvgCat_shift {cats : List α} {meas : List ℚ}
    (hlen : cats.length = meas.length) {c : α} (hc : c ∈ cats) (t : ℚ) :
    yAvgCat cats (meas.map (fun m => m + t)) c = yAvgCat cats meas c + t := by
  rw [yAvgCat, yAvgCat, groupVals_shift]
  exact avg_shift (groupVals_ne_nil hlen hc) t

lemma betweenSS_shift {cats : List α} {meas : List ℚ}
    (hne : cats ≠ []) (hlen : cats.length = meas.length) (t : ℚ) :
    betweenSS cats (meas.map (fun m => m + t)) = betweenSS cats meas := by
  have hmne : meas ≠ [] := by
    intro hm
    exact hne (List.length_eq_zero.mp (by rw [hlen, hm]; rfl))
  rw [betweenSS, betweenSS, betweenSSWith, betweenSSWith]
  refine congrArg List.sum (List.map_congr_left (fun c hc => ?_))
  rw [nCat_shift, yAvgCat_shift hlen (mem_distincts.mp hc),
    grandMean_shift hmne]
  ring_nf

lemma totalSS_shift {meas : List ℚ} (hmne : meas ≠ []) (t : ℚ) :
    totalSS (meas.map (fun m => m + t)) = totalSS meas := by
  rw [totalSS, totalSS, grandMean_shift hmne, totalSSWith, totalSSWith,
    List.map_map]
  refine congrArg List.sum (List.map_congr_left (fun m _ => ?_))
  simp only [Function.comp_apply]
  ring_nf

end Shift

section Relabel

variable {φ : α → β}

lemma distinctsAux_map (hφ : Function.Injective φ) (seen l : List α) :
    distinctsAux (seen.map φ) (l.map φ) = (distinctsAux seen l).map φ := by
  induction l generalizing seen with
  | nil => simp [distinctsAux]
  | cons c rest ih =>
      by_cases hc : c ∈ seen
      · have hmem : φ c ∈ seen.map φ := List.mem_map_of_mem φ hc
        simp only [List.map_cons, distinctsAux, if_pos hmem, if_pos hc, ih]
      · have hnotin : φ c ∉ seen.map φ := by
          intro hmem
          rcases List.mem_map.mp hmem with ⟨a, ha, hfa⟩
          exact hc ((hφ hfa) ▸ ha)
        simp only [List.map_cons, distinctsAux, if_neg hnotin, if_neg hc]
        rw [show (φ c :: seen.map φ) = (c :: seen).map φ from rfl, ih]

lemma distincts_map (hφ : Function.Injective φ) (l : List α) :
    distincts (l.map φ) = (distincts l).map φ :=
  distinctsAux_map hφ [] l

lemma groupVals_relabel (hφ : Function.Injective φ)
    (cats : List α) (meas : List ℚ) (c : α) :
    groupVals (cats.map φ) meas (φ c) = groupVals cats meas c := by
  rw [groupVals, groupVals, List.zip_map_left, List.filter_map, List.map_map]
  have hfil : (cats.zip meas).filter
        ((fun p => decide (p.1 = φ c)) ∘ Prod.map φ id)
      = (cats.zip meas).filter (fun q => decide (q.1 = c)) := by
    refine List.filter_congr (fun q _ => ?_)
    simp [hφ.eq_iff]
  rw [hfil]
  rfl

lemma nCat_relabel (hφ : Function.Injective φ)
    (cats : List α) (meas : List ℚ) (c : α) :
    nCat (cats.map φ) meas (φ c) = nCat cats meas c := by
  rw [nCat, nCat, groupVals_relabel hφ]

lemma yAvgCat_relabel (hφ : Function.Injective φ)
    (cats : List α) (meas : List ℚ) (c : α) :
    yAvgCat (cats.map φ) meas (φ c) = yAvgCat cats meas c := by
  rw [yAvgCat, yAvgCat, groupVals_relabel hφ]

lemma betweenSSWith_relabel (hφ : Function.Injective φ)
    (cats : List α) (meas : List ℚ) (mu : ℚ) :
    betweenSSWith (cats.map φ) meas mu = betweenSSWith cats meas mu := by
  rw [betweenSSWith, betweenSSWith, distincts_map hφ, List.map_map]
  refine congrArg List.sum (List.map_congr_left (fun c _ => ?_))
  simp only [Function.comp_apply, nCat_relabel hφ, yAvgCat_relabel hφ]

lemma yTotalAvg_relabel (hφ : Function.Injective φ)
    (cats : List α) (meas : List ℚ) :
    yTotalAvg (cats.map φ) meas = yTotalAvg cats meas := by
  rw [yTotalAvg, yTotalAvg, distincts_map hφ, List.map_map, List.map_map]
  have h1 : ((distincts cats).map
        ((fun c => yAvgCat (cats.map φ) meas c * nCat (cats.map φ) meas c) ∘ φ))
      = (distincts cats).map (fun c => yAvgCat cats meas c * nCat cats meas c) := by
    refine List.map_congr_left (fun c _ => ?_)
    simp only [Function.comp_apply, nCat_relabel hφ, yAvgCat_relabel hφ]
  have h2 : ((distincts cats).map ((fun c => nCat (cats.map φ) meas c) ∘ φ))
      = (distincts cats).map (fun c => nCat cats meas c) := by
    refine List.map_congr_left (fun c _ => ?_)
    simp only [Function.comp_apply, nCat_relabel hφ]
  rw [h1, h2]

end Relabel

section ConstantInputs

lemma grandMean_eq_avg (meas : List ℚ) : grandMean meas = avg meas := rfl

lemma distinctsAux_replicate_of_mem {seen : List α} {c : α} (h : c ∈ seen) :
    ∀ k : Nat, distinctsAux seen (List.replicate k c) = [] := by
  intro k
  induction k with
  | zero => rfl
  | succ j ih => simp [List.replicate_succ, distinctsAux, h, ih]

lemma distincts_replicate {c : α} {k : Nat} (hk : k ≠ 0) :
    distincts (List.replicate k c) = [c] := by
  cases k with
  | zero => exact absurd rfl hk
  | succ j =>
      rw [distincts, List.replicate_succ]
      simp [distinctsAux, distinctsAux_replicate_of_mem (List.mem_cons_self c []) j]

lemma groupVals_replicate_self {meas : List ℚ} {c : α} {k : Nat}
    (hk : k = meas.length) :
    groupVals (List.replicate k c) meas c = meas := by
  rw [groupVals]
  have hfil : ((List.replicate k c).zip meas).filter (fun p => p.1 = c)
      = (List.replicate k c).zip meas := by
    refine List.filter_eq_self.mpr (fun p hp => ?_)
    have := (List.of_mem_zip hp).1
    simp [List.eq_of_mem_replicate this]
  rw [hfil]
  exact List.map_snd_zip _ _ (by rw [List.length_replicate, hk])

lemma avg_replicate {x : ℚ} {k : Nat} (hk : k ≠ 0) :
    avg (List.replicate k x) = x := by
  have hlen : ((List.replicate k x).length : ℚ) ≠ 0 := by
    rw [List.length_replicate]
    exact_mod_cast hk
  rw [avg, List.sum_replicate, nsmul_eq_mul, List.length_replicate] at *
  field_simp

lemma mem_groupVals_mem_meas {cats : List α} {meas : List ℚ} {c : α} :
    ∀ m ∈ groupVals cats meas c, m ∈ meas := by
  intro m hm
  rcases List.mem_map.mp hm with ⟨p, hp, rfl⟩
  exact (List.of_mem_zip (List.mem_of_mem_filter hp)).2

/-- When every measurement has the same value, the between-group sum of squares
vanishes (each non-empty group mean and the grand mean all equal that value). -/
lemma betweenSS_of_constant {cats : List α} {meas : List ℚ} {x : ℚ}
    (hconst : ∀ m ∈ meas, m = x) :
    betweenSS cats meas = 0 := by
  rw [betweenSS, betweenSSWith]
  refine List.sum_eq_zero (fun y hy => ?_)
  rcases List.mem_map.mp hy with ⟨c, _, rfl⟩
  by_cases hg : groupVals cats meas c = []
  · rw [nCat, hg]
    simp
  · have hgx : ∀ m ∈ groupVals cats meas c, m = x :=
      fun m hm => hconst m (mem_groupVals_mem_meas m hm)
    have hgrep : groupVals cats meas c
        = List.replicate (groupVals cats meas c).length x :=
      (List.eq_replicate_iff.mpr ⟨rfl, hgx⟩)
    have hglen : (groupVals cats meas c).length ≠ 0 :=
      fun hz => hg (List.length_eq_zero.mp hz)
    have hmne : meas ≠ [] := by
      rcases List.exists_mem_of_ne_nil _ hg with ⟨m, hm⟩
      exact List.ne_nil_of_mem (mem_groupVals_mem_meas m hm)
    have hmrep : meas = List.replicate meas.length x :=
      (List.eq_replicate_iff.mpr ⟨rfl, hconst⟩)
    have hmlen : meas.length ≠ 0 := fun hz => hmne (List.length_eq_zero.mp hz)
    have havg : yAvgCat cats meas c = x := by
      rw [yAvgCat]
      conv_lhs => rw [hgrep]
      exact avg_replicate hglen
    have hgm : grandMean meas = x := by
      rw [grandMean_eq_avg]
      conv_lhs => rw [hmrep]
      exact avg_replicate hmlen
    rw [havg, hgm]
    simp

end ConstantInputs

section CorrelationRatioClaims

/-- Claim C1: for every non-empty categorical sequence paired with a
same-length measurement sequence, `correlation_ratio` partitions the
measurements by distinct category value, and whenever the between-group
weighted sum of squared deviations is non-zero it returns that sum divided by
the total sum of squared deviations of all measurements about the grand mean;
moreover the count-weighted grand mean it uses coincides with the plain mean
of all measurements. -/
theorem correlation_ratio_eq_between_div_total {γ : Type*} [DecidableEq γ]
    (cats : List γ) (meas : List ℚ) (_hne : cats ≠ [])
    (hlen : cats.length = meas.length) (hnum : betweenSS cats meas ≠ 0) :
    yTotalAvg cats meas = grandMean meas ∧
    correlation_ratio cats meas = betweenSS cats meas / totalSS meas := by
  refine ⟨yTotalAvg_eq_grandMean hlen, ?_⟩
  rw [correlation_ratio_eq hlen, if_neg hnum]

/-- Witness for claim C1 at categories `[0, 0, 1]` and measurements
`[1, 2, 4]`. -/
theorem correlation_ratio_eq_between_div_total_witness :
    (([0, 0, 1] : List ℕ) ≠ [] ∧
     ([0, 0, 1] : List ℕ).length = ([1, 2, 4] : List ℚ).length ∧
     betweenSS ([0, 0, 1] : List ℕ) ([1, 2, 4] : List ℚ) ≠ 0) ∧
    (yTotalAvg ([0, 0, 1] : List ℕ) ([1, 2, 4] : List ℚ) = grandMean [1, 2, 4] ∧
     correlation_ratio ([0, 0, 1] : List ℕ) ([1, 2, 4] : List ℚ)
       = betweenSS ([0, 0, 1] : List ℕ) [1, 2, 4] / totalSS [1, 2, 4]) := by
  have h1 : ([0, 0, 1] : List ℕ) ≠ [] := by decide
  have h2 : ([0, 0, 1] : List ℕ).length = ([1, 2, 4] : List ℚ).length := rfl
  have h3 : betweenSS ([0, 0, 1] : List ℕ) ([1, 2, 4] : List ℚ) ≠ 0 := by
    norm_num [betweenSS, betweenSSWith, nCat, yAvgCat, avg, groupVals,
      distincts, distinctsAux, grandMean]
  exact ⟨⟨h1, h2, h3⟩, correlation_ratio_eq_between_div_total _ _ h1 h2 h3⟩

/-- Claim C2: on every non-empty equal-length input, `correlation_ratio`
returns exactly `0` when the between-group numerator is zero; in particular
it returns `0` when there is a single category, and when all measurements are
identical. -/
theorem correlation_ratio_zero_of_zero_numerator {γ : Type*} [DecidableEq γ]
    (cats : List γ) (meas : List ℚ) (hne : cats ≠ [])
    (hlen : cats.length = meas.length) :
    (betweenSS cats meas = 0 → correlation_ratio cats meas = 0) ∧
    (∀ c : γ, cats = List.replicate cats.length c →
      correlation_ratio cats meas = 0) ∧
    (∀ x : ℚ, meas = List.replicate meas.length x →
      correlation_ratio cats meas = 0) := by
  have hzero : betweenSS cats meas = 0 → correlation_ratio cats meas = 0 := by
    intro h0
    rw [correlation_ratio_eq hlen, if_pos h0]
  refine ⟨hzero, fun c hrep => ?_, fun x hrep => ?_⟩
  · apply hzero
    have hlnz : cats.length ≠ 0 := fun hz => hne (List.length_eq_zero.mp hz)
    have hdist : distincts cats = [c] := by
      conv_lhs => rw [hrep]
      exact distincts_replicate hlnz
    have hgv : groupVals cats meas c = meas := by
      conv_lhs => rw [hrep]
      exact groupVals_replicate_self hlen
    rw [betweenSS, betweenSSWith, hdist]
    simp only [List.map_cons, List.map_nil, List.sum_cons, List.sum_nil, add_zero]
    rw [yAvgCat, hgv, grandMean_eq_avg]
    simp
  · exact hzero (betweenSS_of_constant
      (fun m hm => List.eq_of_mem_replicate (hrep ▸ hm)))

/-- Witness for claim C2 at the single-category input with categories
`[0, 0]` and measurements `[1, 2]`: the between-group numerator is exactly
zero there, the categories are one replicated class, and the theorem's
zero-numerator branch yields eta `0`. -/
theorem correlation_ratio_zero_of_zero_numerator_witness :
    (([0, 0] : List ℕ) ≠ [] ∧
     ([0, 0] : List ℕ).length = ([1, 2] : List ℚ).length) ∧
    betweenSS ([0, 0] : List ℕ) ([1, 2] : List ℚ) = 0 ∧
    ([0, 0] : List ℕ) = List.replicate ([0, 0] : List ℕ).length 0 ∧
    correlation_ratio ([0, 0] : List ℕ) ([1, 2] : List ℚ) = 0 := by
  have h1 : ([0, 0] : List ℕ) ≠ [] := by decide
  have h2 : ([0, 0] : List ℕ).length = ([1, 2] : List ℚ).length := rfl
  have hb : betweenSS ([0, 0] : List ℕ) ([1, 2] : List ℚ) = 0 := by
    norm_num [betweenSS, betweenSSWith, nCat, yAvgCat, avg, groupVals,
      distincts, distinctsAux, grandMean]
  have hrep : ([0, 0] : List ℕ)
      = List.replicate ([0, 0] : List ℕ).length 0 := by decide
  exact ⟨⟨h1, h2⟩, hb, hrep,
    (correlation_ratio_zero_of_zero_numerator _ _ h1 h2).1 hb⟩

/-- Claim C3: on every non-empty equal-length input (over exact arithmetic)
the returned value lies in `[0, 1]`, and whenever the between-group numerator
is non-zero the total sum of squares is strictly positive and at least the
numerator. -/
theorem correlation_ratio_mem_unit_interval {γ : Type*} [DecidableEq γ]
    (cats : List γ) (meas : List ℚ) (_hne : cats ≠ [])
    (hlen : cats.length = meas.length) :
    0 ≤ correlation_ratio cats meas ∧ correlation_ratio cats meas ≤ 1 ∧
    (betweenSS cats meas ≠ 0 →
      0 < totalSS meas ∧ betweenSS cats meas ≤ totalSS meas) := by
  have hb : 0 ≤ betweenSS cats meas := betweenSSWith_nonneg cats meas (grandMean meas)
  have hle : betweenSS cats meas ≤ totalSS meas := betweenSS_le_totalSS hlen
  rw [correlation_ratio_eq hlen]
  by_cases h0 : betweenSS cats meas = 0
  · rw [if_pos h0]
    exact ⟨le_refl 0, by norm_num, fun hc => absurd h0 hc⟩
  · have hpos : 0 < betweenSS cats meas := lt_of_le_of_ne hb (Ne.symm h0)
    have htot : 0 < totalSS meas := lt_of_lt_of_le hpos hle
    rw [if_neg h0]
    exact ⟨div_nonneg hpos.le htot.le, (div_le_one htot).mpr hle,
      fun _ => ⟨htot, hle⟩⟩

/-- Witness for claim C3 at categories `[0, 0, 1]` and measurements
`[1, 2, 4]`. -/
theorem correlation_ratio_mem_unit_interval_witness :
    (([0, 0, 1] : List ℕ) ≠ [] ∧
     ([0, 0, 1] : List ℕ).length = ([1, 2, 4] : List ℚ).length) ∧
    (0 ≤ correlation_ratio ([0, 0, 1] : List ℕ) ([1, 2, 4] : List ℚ) ∧
     correlation_ratio ([0, 0, 1] : List ℕ) ([1, 2, 4] : List ℚ) ≤ 1 ∧
     (betweenSS ([0, 0, 1] : List ℕ) ([1, 2, 4] : List ℚ) ≠ 0 →
       0 < totalSS ([1, 2, 4] : List ℚ) ∧
       betweenSS ([0, 0, 1] : List ℕ) ([1, 2, 4] : List ℚ)
         ≤ totalSS ([1, 2, 4] : List ℚ))) := by
  have h1 : ([0, 0, 1] : List ℕ) ≠ [] := by decide
  have h2 : ([0, 0, 1] : List ℕ).length = ([1, 2, 4] : List ℚ).length := rfl
  exact ⟨⟨h1, h2⟩, correlation_ratio_mem_unit_interval _ _ h1 h2⟩

/-- Counterexample to claim C4 as stated: the input with categories
`[0, 0, 1]` and measurements `[1, 2, 4]` is unbalanced (group sizes `2` and
`1`), yet adding the constant `5` to every measurement leaves the returned
eta unchanged — contradicting the claim that on unbalanced inputs a global
shift changes the result. -/
theorem correlation_ratio_shift_unbalanced_counterexample :
    nCat ([0, 0, 1] : List ℕ) ([1, 2, 4] : List ℚ) 0 = 2 ∧
    nCat ([0, 0, 1] : List ℕ) ([1, 2, 4] : List ℚ) 1 = 1 ∧
    correlation_ratio ([0, 0, 1] : List ℕ)
        (([1, 2, 4] : List ℚ).map (fun m => m + 5))
      = correlation_ratio ([0, 0, 1] : List ℕ) ([1, 2, 4] : List ℚ) := by
  refine ⟨?_, ?_, ?_⟩
  · norm_num [nCat, groupVals]
  · norm_num [nCat, groupVals]
  · have e1 : correlation_ratio ([0, 0, 1] : List ℕ)
        (([1, 2, 4] : List ℚ).map (fun m => m + 5)) = 25 / 28 := by
      norm_num [correlation_ratio, betweenSSWith, totalSSWith, yTotalAvg,
        nCat, yAvgCat, avg, groupVals, distincts, distinctsAux]
    have e2 : correlation_ratio ([0, 0, 1] : List ℕ) ([1, 2, 4] : List ℚ)
        = 25 / 28 := by
      norm_num [correlation_ratio, betweenSSWith, totalSSWith, yTotalAvg,
        nCat, yAvgCat, avg, groupVals, distincts, distinctsAux]
    rw [e1, e2]

/-- Claim C4 (amended): over exact arithmetic `correlation_ratio` is
invariant under adding the same constant to every measurement for every
non-empty equal-length input, balanced or not; the claimed sensitivity of
unbalanced inputs to a global shift is a floating-point rounding artifact,
not a property of the algorithm. -/
theorem correlation_ratio_shift_invariant {γ : Type*} [DecidableEq γ]
    (cats : List γ) (meas : List ℚ) (t : ℚ) (hne : cats ≠ [])
    (hlen : cats.length = meas.length) :
    correlation_ratio cats (meas.map (fun m => m + t))
      = correlation_ratio cats meas := by
  have hmne : meas ≠ [] := by
    intro hm
    apply hne
    rw [hm] at hlen
    exact List.length_eq_zero.mp hlen
  have hlen' : cats.length = (meas.map (fun m => m + t)).length := by
    rw [List.length_map]
    exact hlen
  rw [correlation_ratio_eq hlen', correlation_ratio_eq hlen,
    betweenSS_shift hne hlen t, totalSS_shift hmne t]

/-- Witness for the amended claim C4 at categories `[0, 0, 1]`, measurements
`[1, 2, 4]` and shift `5`. -/
theorem correlation_ratio_shift_invariant_witness :
    (([0, 0, 1] : List ℕ) ≠ [] ∧
     ([0, 0, 1] : List ℕ).length = ([1, 2, 4] : List ℚ).length) ∧
    correlation_ratio ([0, 0, 1] : List ℕ)
        (([1, 2, 4] : List ℚ).map (fun m => m + 5))
      = correlation_ratio ([0, 0, 1] : List ℕ) ([1, 2, 4] : List ℚ) := by
  have h1 : ([0, 0, 1] : List ℕ) ≠ [] := by decide
  have h2 : ([0, 0, 1] : List ℕ).length = ([1, 2, 4] : List ℚ).length := rfl
  exact ⟨⟨h1, h2⟩, correlation_ratio_shift_invariant _ _ 5 h1 h2⟩

/-- Claim C10: `correlation_ratio` depends on the categories only through the
partition they induce: any injective renaming of the category labels leaves
the returned eta unchanged. -/
theorem correlation_ratio_relabel_invariant {γ δ : Type*}
    [DecidableEq γ] [DecidableEq δ] (φ : γ → δ) (hφ : Function.Injective φ)
    (cats : List γ) (meas : List ℚ) :
    correlation_ratio (cats.map φ) meas = correlation_ratio cats meas := by
  rw [correlation_ratio, correlation_ratio, yTotalAvg_relabel hφ,
    betweenSSWith_relabel hφ]

/-- Witness for claim C10 at the injective renaming `n ↦ n + 2` on the input
with categories `[0, 0, 1]` and measurements `[1, 2, 4]`. -/
theorem correlation_ratio_relabel_invariant_witness :
    Function.Injective (fun n : ℕ => n + 2) ∧
    correlation_ratio (([0, 0, 1] : List ℕ).map (fun n => n + 2))
        ([1, 2, 4] : List ℚ)
      = correlation_ratio ([0, 0, 1] : List ℕ) ([1, 2, 4] : List ℚ) := by
  have hinj : Function.Injective (fun n : ℕ => n + 2) :=
    fun a b h => Nat.add_right_cancel h
  exact ⟨hinj, correlation_ratio_relabel_invariant _ hinj _ _⟩

end CorrelationRatioClaims

section TableLemmas

lemma find?_map_keep_fst (f : String × Col → String × Col)
    (hf : ∀ c, (f c).1 = c.1) (t : Table) (n : String) :
    (t.map f).find? (fun c => c.1 = n) = (t.find? (fun c => c.1 = n)).map f := by
  induction t with
  | nil => rfl
  | cons c rest ih =>
      by_cases hc : c.1 = n
      · have h1 : (f c).1 = n := by rw [hf]; exact hc
        rw [List.map_cons, List.find?_cons_of_pos _ (by simp [h1]),
          List.find?_cons_of_pos _ (by simp [hc]), Option.map_some']
      · have h1 : ¬(f c).1 = n := by rw [hf]; exact hc
        rw [List.map_cons, List.find?_cons_of_neg _ (by simp [h1]),
          List.find?_cons_of_neg _ (by simp [hc]), ih]

lemma fillna_eq_some {n : String} {v : Val} {t t' : Table}
    (h : fillna n v t = some t') :
    t' = t.map (fun c => if c.1 = n then (c.1, fillCol v c.2) else c) := by
  rw [fillna] at h
  by_cases hc : hasCol t n
  · rw [if_pos hc] at h
    exact (Option.some_inj.mp h).symm
  · rw [if_neg hc] at h
    cases h

lemma fill_fun_keeps_fst (n : String) (v : Val) :
    ∀ c : String × Col,
      ((if c.1 = n then (c.1, fillCol v c.2) else c) : String × Col).1 = c.1 := by
  intro c
  by_cases hc : c.1 = n <;> simp [hc]

lemma getCol_fillna_self {n : String} {v : Val} {t t' : Table} {col : Col}
    (h : fillna n v t = some t') (hcol : getCol t n = some col) :
    getCol t' n = some (fillCol v col) := by
  rw [fillna_eq_some h, getCol,
    find?_map_keep_fst _ (fill_fun_keeps_fst n v) t n]
  rw [getCol] at hcol
  rcases hfind : t.find? (fun c => c.1 = n) with _ | c0
  · rw [hfind] at hcol
    cases hcol
  · rw [hfind] at hcol
    rw [hfind]
    have hpc := List.find?_some hfind
    have hc0 : c0.1 = n := by simpa using hpc
    have hc0col : c0.2 = col := Option.some_inj.mp hcol
    simp [hc0, hc0col]

lemma getCol_fillna_ne {n n' : String} {v : Val} {t t' : Table}
    (h : fillna n v t = some t') (hne : n' ≠ n) :
    getCol t' n' = getCol t n' := by
  rw [fillna_eq_some h, getCol,
    find?_map_keep_fst _ (fill_fun_keeps_fst n v) t n']
  rcases hfind : t.find? (fun c => c.1 = n') with _ | c0
  · rw [getCol, hfind]
    rfl
  · have hpc := List.find?_some hfind
    have hc0 : c0.1 = n' := by simpa using hpc
    rw [getCol, hfind]
    simp [hc0, hne]

lemma getCol_hasCol {t : Table} {n : String} (h : hasCol t n = true) :
    ∃ col, getCol t n = some col := by
  rw [hasCol, List.any_eq_true] at h
  rcases h with ⟨c, hc, hpc⟩
  have : (t.find? (fun c => c.1 = n)).isSome :=
    List.find?_isSome.mpr ⟨c, hc, hpc⟩
  rcases hfind : t.find? (fun c => c.1 = n) with _ | c0
  · rw [hfind] at this
    cases this
  · exact ⟨c0.2, by rw [getCol, hfind]; rfl⟩

lemma fillna_some_of_getCol {t : Table} {n : String} {col : Col}
    (hcol : getCol t n = some col) (v : Val) :
    fillna n v t
      = some (t.map (fun c => if c.1 = n then (c.1, fillCol v c.2) else c)) := by
  have hhas : hasCol t n = true := by
    rw [getCol] at hcol
    rcases hfind : t.find? (fun c => c.1 = n) with _ | c0
    · rw [hfind] at hcol
      cases hcol
    · have hpc := List.find?_some hfind
      rw [hasCol, List.any_eq_true]
      exact ⟨c0, List.mem_of_find?_eq_some hfind, hpc⟩
  rw [fillna, if_pos hhas]

lemma fillnaMean_cases {n : String} {t t' : Table}
    (h : fillnaMean n t = some t') :
    ∃ col, getCol t n = some col ∧
      ((colMean col = none ∧ t' = t) ∨
       (∃ m, colMean col = some m ∧ fillna n (Val.num m) t = some t')) := by
  rw [fillnaMean] at h
  rcases hcol : getCol t n with _ | col <;> rw [hcol] at h
  · cases h
  · refine ⟨col, rfl, ?_⟩
    have h' : (match colMean col with
        | none => some t
        | some m => fillna n (Val.num m) t) = some t' := h
    rcases hm : colMean col with _ | m <;> rw [hm] at h'
    · exact Or.inl ⟨rfl, (Option.some_inj.mp h').symm⟩
    · exact Or.inr ⟨m, rfl, h'⟩

lemma getCol_fillnaMean_ne {n n' : String} {t t' : Table}
    (h : fillnaMean n t = some t') (hne : n' ≠ n) :
    getCol t' n' = getCol t n' := by
  rcases fillnaMean_cases h with ⟨col, _, hcase⟩
  rcases hcase with ⟨_, rfl⟩ | ⟨m, _, hfill⟩
  · rfl
  · exact getCol_fillna_ne hfill hne

lemma colMean_some_of_numeric {col : Col}
    (h : (col.filterMap numVal).length ≠ 0) :
    colMean col
      = some ((col.filterMap numVal).sum / ((col.filterMap numVal).length : ℚ)) := by
  rw [colMean, if_neg h]

lemma dropColumns_eq_some {names : List String} {t t' : Table}
    (h : dropColumns names t = some t') :
    t' = t.filter (fun c => !names.contains c.1) := by
  rw [dropColumns] at h
  by_cases hall : names.all (fun n => hasCol t n)
  · rw [if_pos hall] at h
    exact (Option.some_inj.mp h).symm
  · rw [if_neg hall] at h
    cases h

lemma find?_filter_of_imp (t : Table) (p q : String × Col → Bool)
    (h : ∀ c, p c = true → q c = true) :
    (t.filter q).find? p = t.find? p := by
  induction t with
  | nil => rfl
  | cons c rest ih =>
      rcases hq : q c with _ | _
      · have hp : p c = false := by
          rcases hpc : p c with _ | _
          · rfl
          · rw [h c hpc] at hq
            cases hq
        rw [List.filter_cons, hq]
        simp only [Bool.false_eq_true, if_false]
        rw [List.find?_cons_of_neg _ (by simp [hp]), ih]
      · rw [List.filter_cons, hq]
        simp only [if_true]
        rcases hpc : p c with _ | _
        · rw [List.find?_cons_of_neg _ (by simp [hpc]),
            List.find?_cons_of_neg _ (by simp [hpc]), ih]
        · rw [List.find?_cons_of_pos _ (by simp [hpc]),
            List.find?_cons_of_pos _ (by simp [hpc])]

lemma getCol_dropColumns {names : List String} {t t' : Table} {n : String}
    (h : dropColumns names t = some t') (hn : names.contains n = false) :
    getCol t' n = getCol t n := by
  have himp : ∀ c : String × Col,
      (decide (c.1 = n)) = true → (!names.contains c.1) = true := by
    intro c hpc
    have hc : c.1 = n := of_decide_eq_true hpc
    rw [hc, hn]
    rfl
  rw [dropColumns_eq_some h, getCol, getCol, find?_filter_of_imp t _ _ himp]

end TableLemmas

section KeepsLemmas

lemma entryKeeps_refl (o : Option Val) : entryKeeps o o := fun _ => rfl

lemma entryKeeps_trans {a b c : Option Val} (h1 : entryKeeps a b)
    (h2 : entryKeeps b c) : entryKeeps a c := by
  intro ha
  have hb : b = a := h1 ha
  have hc : c = b := h2 (by rw [hb]; exact ha)
  rw [hc, hb]

lemma colKeeps_refl (col : Col) : colKeeps col col := by
  induction col with
  | nil => exact List.Forall₂.nil
  | cons o rest ih => exact List.Forall₂.cons (entryKeeps_refl o) ih

lemma colKeeps_trans {a b c : Col} (h1 : colKeeps a b) (h2 : colKeeps b c) :
    colKeeps a c := by
  induction h1 generalizing c with
  | nil =>
      cases h2
      exact List.Forall₂.nil
  | cons hab h1' ih =>
      cases h2 with
      | cons hbc h2' => exact List.Forall₂.cons (entryKeeps_trans hab hbc) (ih h2')

lemma colKeeps_fillCol (v : Val) (col : Col) : colKeeps col (fillCol v col) := by
  induction col with
  | nil => exact List.Forall₂.nil
  | cons o rest ih =>
      refine List.Forall₂.cons ?_ ih
      intro ho
      rcases o with _ | x
      · cases ho
      · rfl

lemma fillCol_isSome (v : Val) (col : Col) :
    ∀ o ∈ fillCol v col, o.isSome := by
  intro o ho
  rcases List.mem_map.mp ho with ⟨e, _, rfl⟩
  rfl

lemma tableKeeps_refl (t : Table) : tableKeeps t t := by
  induction t with
  | nil => exact List.Forall₂.nil
  | cons c rest ih => exact List.Forall₂.cons ⟨rfl, colKeeps_refl c.2⟩ ih

lemma tableKeeps_trans {a b c : Table} (h1 : tableKeeps a b)
    (h2 : tableKeeps b c) : tableKeeps a c := by
  induction h1 generalizing c with
  | nil =>
      cases h2
      exact List.Forall₂.nil
  | cons hab h1' ih =>
      cases h2 with
      | cons hbc h2' =>
          exact List.Forall₂.cons
            ⟨hab.1.trans hbc.1, colKeeps_trans hab.2 hbc.2⟩ (ih h2')

lemma tableKeeps_map_fill (n : String) (v : Val) (t : Table) :
    tableKeeps t (t.map (fun c => if c.1 = n then (c.1, fillCol v c.2) else c)) := by
  induction t with
  | nil => exact List.Forall₂.nil
  | cons c rest ih =>
      rw [List.map_cons]
      by_cases hc : c.1 = n
      · rw [if_pos hc]
        exact List.Forall₂.cons ⟨rfl, colKeeps_fillCol v c.2⟩ ih
      · rw [if_neg hc]
        exact List.Forall₂.cons ⟨rfl, colKeeps_refl c.2⟩ ih

lemma tableKeeps_fillna {n : String} {v : Val} {t t' : Table}
    (h : fillna n v t = some t') : tableKeeps t t' := by
  rw [fillna_eq_some h]
  exact tableKeeps_map_fill n v t

lemma tableKeeps_fillnaMean {n : String} {t t' : Table}
    (h : fillnaMean n t = some t') : tableKeeps t t' := by
  rcases fillnaMean_cases h with ⟨col, _, hcase⟩
  rcases hcase with ⟨_, rfl⟩ | ⟨m, _, hfill⟩
  · exact tableKeeps_refl _
  · exact tableKeeps_fillna hfill

lemma map_fst_fillna {n : String} {v : Val} {t t' : Table}
    (h : fillna n v t = some t') : t'.map Prod.fst = t.map Prod.fst := by
  rw [fillna_eq_some h, List.map_map]
  exact List.map_congr_left (fun c _ => fill_fun_keeps_fst n v c)

lemma map_fst_fillnaMean {n : String} {t t' : Table}
    (h : fillnaMean n t = some t') : t'.map Prod.fst = t.map Prod.fst := by
  rcases fillnaMean_cases h with ⟨col, _, hcase⟩
  rcases hcase with ⟨_, rfl⟩ | ⟨m, _, hfill⟩
  · rfl
  · exact map_fst_fillna hfill

lemma fillna_some_hasCol {n : String} {v : Val} {t t' : Table}
    (h : fillna n v t = some t') : hasCol t n = true := by
  rw [fillna] at h
  by_cases hc : hasCol t n
  · exact hc
  · rw [if_neg hc] at h
    cases h

lemma clean_eq_some {data out : Table} (h : clean data = some out) :
    ∃ d1 d2 d3 d4 d5,
      dropColumns droppable data = some d1 ∧
      fillnaMean "Age" d1 = some d2 ∧
      fillna "Embarked" (Val.str "U") d2 = some d3 ∧
      fillna "SibSp" (Val.num 0) d3 = some d4 ∧
      fillna "Parch" (Val.num 0) d4 = some d5 ∧
      fillnaMean "Fare" d5 = some out := by
  simp only [clean, Option.bind_eq_some] at h
  obtain ⟨d1, h1, d2, h2, d3, h3, d4, h4, d5, h5, h6⟩ := h
  exact ⟨d1, d2, d3, d4, d5, h1, h2, h3, h4, h5, h6⟩

end KeepsLemmas

section CleanClaims

/-- Claim C5: for every table on which `clean` succeeds and whose Age and
Fare columns each hold at least one numeric (non-missing) entry so that the
column mean is computable, `clean` fills the missing Age and Fare entries
with the respective column mean, the missing Embarked entries with the
sentinel category "U", the missing SibSp and Parch entries with zero, and
the returned table has no remaining missing value in any of those five
columns. -/
theorem clean_fills_all_missing {data out : Table} (h : clean data = some out)
    (hAge : ∀ col, getCol data "Age" = some col →
      (col.filterMap numVal).length ≠ 0)
    (hFare : ∀ col, getCol data "Fare" = some col →
      (col.filterMap numVal).length ≠ 0) :
    (∃ col m, getCol data "Age" = some col ∧ colMean col = some m ∧
      getCol out "Age" = some (fillCol (Val.num m) col)) ∧
    (∃ col m, getCol data "Fare" = some col ∧ colMean col = some m ∧
      getCol out "Fare" = some (fillCol (Val.num m) col)) ∧
    (∃ col, getCol data "Embarked" = some col ∧
      getCol out "Embarked" = some (fillCol (Val.str "U") col)) ∧
    (∃ col, getCol data "SibSp" = some col ∧
      getCol out "SibSp" = some (fillCol (Val.num 0) col)) ∧
    (∃ col, getCol data "Parch" = some col ∧
      getCol out "Parch" = some (fillCol (Val.num 0) col)) ∧
    (∀ n ∈ (["Age", "Fare", "Embarked", "SibSp", "Parch"] : List String),
      ∀ col, getCol out n = some col → ∀ o ∈ col, o.isSome) := by
  obtain ⟨d1, d2, d3, d4, d5, h1, h2, h3, h4, h5, h6⟩ := clean_eq_some h
  have hA1 : getCol d1 "Age" = getCol data "Age" :=
    getCol_dropColumns h1 (by decide)
  obtain ⟨colA, hcolA, hcaseA⟩ := fillnaMean_cases h2
  have hcolA' : getCol data "Age" = some colA := by
    rw [← hA1]
    exact hcolA
  have hmA := colMean_some_of_numeric (hAge colA hcolA')
  rcases hcaseA with ⟨hnoneA, _⟩ | ⟨mA, hmA', hfillA⟩
  · rw [hmA] at hnoneA
    cases hnoneA
  have hA2 : getCol d2 "Age" = some (fillCol (Val.num mA) colA) :=
    getCol_fillna_self hfillA hcolA
  have hAout : getCol out "Age" = some (fillCol (Val.num mA) colA) := by
    rw [getCol_fillnaMean_ne h6 (by decide), getCol_fillna_ne h5 (by decide),
      getCol_fillna_ne h4 (by decide), getCol_fillna_ne h3 (by decide)]
    exact hA2
  obtain ⟨colE, hcolE⟩ := getCol_hasCol (fillna_some_hasCol h3)
  have hcolE' : getCol data "Embarked" = some colE := by
    rw [← getCol_dropColumns h1 (by decide),
      ← getCol_fillnaMean_ne h2 (by decide)]
    exact hcolE
  have hE3 : getCol d3 "Embarked" = some (fillCol (Val.str "U") colE) :=
    getCol_fillna_self h3 hcolE
  have hEout : getCol out "Embarked" = some (fillCol (Val.str "U") colE) := by
    rw [getCol_fillnaMean_ne h6 (by decide), getCol_fillna_ne h5 (by decide),
      getCol_fillna_ne h4 (by decide)]
    exact hE3
  obtain ⟨colS, hcolS⟩ := getCol_hasCol (fillna_some_hasCol h4)
  have hcolS' : getCol data "SibSp" = some colS := by
    rw [← getCol_dropColumns h1 (by decide),
      ← getCol_fillnaMean_ne h2 (by decide),
      ← getCol_fillna_ne h3 (by decide)]
    exact hcolS
  have hS4 : getCol d4 "SibSp" = some (fillCol (Val.num 0) colS) :=
    getCol_fillna_self h4 hcolS
  have hSout : getCol out "SibSp" = some (fillCol (Val.num 0) colS) := by
    rw [getCol_fillnaMean_ne h6 (by decide), getCol_fillna_ne h5 (by decide)]
    exact hS4
  obtain ⟨colP, hcolP⟩ := getCol_hasCol (fillna_some_hasCol h5)
  have hcolP' : getCol data "Parch" = some colP := by
    rw [← getCol_dropColumns h1 (by decide),
      ← getCol_fillnaMean_ne h2 (by decide),
      ← getCol_fillna_ne h3 (by decide), ← getCol_fillna_ne h4 (by decide)]
    exact hcolP
  have hP5 : getCol d5 "Parch" = some (fillCol (Val.num 0) colP) :=
    getCol_fillna_self h5 hcolP
  have hPout : getCol out "Parch" = some (fillCol (Val.num 0) colP) := by
    rw [getCol_fillnaMean_ne h6 (by decide)]
    exact hP5
  obtain ⟨colF, hcolF, hcaseF⟩ := fillnaMean_cases h6
  have hcolF' : getCol data "Fare" = some colF := by
    rw [← getCol_dropColumns h1 (by decide),
      ← getCol_fillnaMean_ne h2 (by decide),
      ← getCol_fillna_ne h3 (by decide), ← getCol_fillna_ne h4 (by decide),
      ← getCol_fillna_ne h5 (by decide)]
    exact hcolF
  have hmF := colMean_some_of_numeric (hFare colF hcolF')
  rcases hcaseF with ⟨hnoneF, _⟩ | ⟨mF, hmF', hfillF⟩
  · rw [hmF] at hnoneF
    cases hnoneF
  have hFout : getCol out "Fare" = some (fillCol (Val.num mF) colF) :=
    getCol_fillna_self hfillF hcolF
  refine ⟨⟨colA, mA, hcolA', hmA', hAout⟩, ⟨colF, mF, hcolF', hmF', hFout⟩,
    ⟨colE, hcolE', hEout⟩, ⟨colS, hcolS', hSout⟩, ⟨colP, hcolP', hPout⟩, ?_⟩
  intro n hn col hcol o ho
  simp only [List.mem_cons, List.not_mem_nil, or_false] at hn
  rcases hn with rfl | rfl | rfl | rfl | rfl
  · rw [hAout] at hcol
    have hcc : col = fillCol (Val.num mA) colA := (Option.some_inj.mp hcol).symm
    subst hcc
    exact fillCol_isSome _ _ o ho
  · rw [hFout] at hcol
    have hcc : col = fillCol (Val.num mF) colF := (Option.some_inj.mp hcol).symm
    subst hcc
    exact fillCol_isSome _ _ o ho
  · rw [hEout] at hcol
    have hcc : col = fillCol (Val.str "U") colE := (Option.some_inj.mp hcol).symm
    subst hcc
    exact fillCol_isSome _ _ o ho
  · rw [hSout] at hcol
    have hcc : col = fillCol (Val.num 0) colS := (Option.some_inj.mp hcol).symm
    subst hcc
    exact fillCol_isSome _ _ o ho
  · rw [hPout] at hcol
    have hcc : col = fillCol (Val.num 0) colP := (Option.some_inj.mp hcol).symm
    subst hcc
    exact fillCol_isSome _ _ o ho

/-- Claim C6: whenever `clean` returns a table, that table's column names are
exactly the input's column names with Name, Ticket and Cabin removed (no
other column is removed, and the order is preserved), and each retained
column corresponds to an input column of the same name and row count in
which every non-missing entry keeps its original value. -/
theorem clean_drops_exactly_name_ticket_cabin {data out : Table}
    (h : clean data = some out) :
    out.map Prod.fst
      = (data.map Prod.fst).filter (fun n => !droppable.contains n) ∧
    tableKeeps (data.filter (fun c => !droppable.contains c.1)) out := by
  obtain ⟨d1, d2, d3, d4, d5, h1, h2, h3, h4, h5, h6⟩ := clean_eq_some h
  have hd1 : d1 = data.filter (fun c => !droppable.contains c.1) :=
    dropColumns_eq_some h1
  have hk : tableKeeps d1 out :=
    tableKeeps_trans (tableKeeps_fillnaMean h2)
      (tableKeeps_trans (tableKeeps_fillna h3)
        (tableKeeps_trans (tableKeeps_fillna h4)
          (tableKeeps_trans (tableKeeps_fillna h5) (tableKeeps_fillnaMean h6))))
  have hnames : out.map Prod.fst = d1.map Prod.fst := by
    rw [map_fst_fillnaMean h6, map_fst_fillna h5, map_fst_fillna h4,
      map_fst_fillna h3, map_fst_fillnaMean h2]
  constructor
  · rw [hnames, hd1, List.filter_map Prod.fst data]
    exact congrArg (List.map Prod.fst) (List.filter_congr (fun c _ => rfl))
  · rw [← hd1]
    exact hk

lemma sample_step_drop : dropColumns droppable sampleTable = some sampleDropped := by
  decide

lemma sample_step_age : fillnaMean "Age" sampleDropped = some sampleAgeFilled := by
  have hget : getCol sampleDropped "Age" = some [some (Val.num 20), none] := by
    decide
  have hm : colMean [some (Val.num 20), none] = some 20 := by
    rw [colMean]
    simp only [List.filterMap_cons, List.filterMap_nil, numVal]
    norm_num
  have hfill : fillna "Age" (Val.num 20) sampleDropped = some sampleAgeFilled := by
    decide
  simp only [fillnaMean, hget, hm]
  exact hfill

lemma sample_step_embarked : fillna "Embarked" (Val.str "U") sampleAgeFilled
    = some sampleEmbarkedFilled := by decide

lemma sample_step_sibsp : fillna "SibSp" (Val.num 0) sampleEmbarkedFilled
    = some sampleSibSpFilled := by decide

lemma sample_step_parch : fillna "Parch" (Val.num 0) sampleSibSpFilled
    = some sampleParchFilled := by decide

lemma sample_step_fare : fillnaMean "Fare" sampleParchFilled
    = some sampleCleaned := by
  have hget : getCol sampleParchFilled "Fare" = some [none, some (Val.num 8)] := by
    decide
  have hm : colMean [none, some (Val.num 8)] = some 8 := by
    rw [colMean]
    simp only [List.filterMap_cons, List.filterMap_nil, numVal]
    norm_num
  have hfill : fillna "Fare" (Val.num 8) sampleParchFilled
      = some sampleCleaned := by decide
  simp only [fillnaMean, hget, hm]
  exact hfill

/-- Evaluation of `clean` on the sample table: every step succeeds and the
means of Age and Fare are `20` and `8`. -/
lemma clean_sample : clean sampleTable = some sampleCleaned := by
  rw [clean, sample_step_drop, Option.some_bind, sample_step_age,
    Option.some_bind, sample_step_embarked, Option.some_bind,
    sample_step_sibsp, Option.some_bind, sample_step_parch, Option.some_bind,
    sample_step_fare]

/-- Witness for claim C5 at the sample table. -/
theorem clean_fills_all_missing_witness :
    (clean sampleTable = some sampleCleaned ∧
     (∀ col, getCol sampleTable "Age" = some col →
       (col.filterMap numVal).length ≠ 0) ∧
     (∀ col, getCol sampleTable "Fare" = some col →
       (col.filterMap numVal).length ≠ 0)) ∧
    (∀ n ∈ (["Age", "Fare", "Embarked", "SibSp", "Parch"] : List String),
      ∀ col, getCol sampleCleaned n = some col → ∀ o ∈ col, o.isSome) := by
  have hA : ∀ col, getCol sampleTable "Age" = some col →
      (col.filterMap numVal).length ≠ 0 := by
    intro col hcol
    have hg : getCol sampleTable "Age" = some [some (Val.num 20), none] := by
      decide
    rw [hg] at hcol
    have hcc := Option.some_inj.mp hcol
    subst hcc
    decide
  have hF : ∀ col, getCol sampleTable "Fare" = some col →
      (col.filterMap numVal).length ≠ 0 := by
    intro col hcol
    have hg : getCol sampleTable "Fare" = some [none, some (Val.num 8)] := by
      decide
    rw [hg] at hcol
    have hcc := Option.some_inj.mp hcol
    subst hcc
    decide
  exact ⟨⟨clean_sample, hA, hF⟩,
    (clean_fills_all_missing clean_sample hA hF).2.2.2.2.2⟩

/-- Witness for claim C6 at the sample table. -/
theorem clean_drops_exactly_name_ticket_cabin_witness :
    clean sampleTable = some sampleCleaned ∧
    (sampleCleaned.map Prod.fst
       = (sampleTable.map Prod.fst).filter (fun n => !droppable.contains n) ∧
     tableKeeps (sampleTable.filter (fun c => !droppable.contains c.1))
       sampleCleaned) :=
  ⟨clean_sample, clean_drops_exactly_name_ticket_cabin clean_sample⟩

end CleanClaims

section HeapClaims

lemma set_append_singleton {γ : Type*} (l : List γ) (a b : γ) :
    (l ++ [a]).set l.length b = l ++ [b] := by
  induction l with
  | nil => rfl
  | cons x xs ih =>
      simp only [List.cons_append, List.length_cons, List.set_cons_succ, ih]

lemma getD_concat (l : List Table) (t : Table) :
    (l ++ [t]).getD l.length [] = t := by
  rw [List.getD_eq_getElem?_getD, List.getElem?_concat_length]
  rfl

/-- Claim C7: running the imperative body of `clean` on a heap leaves the
caller's table — and every pre-existing heap cell — unchanged, returns a
reference to the freshly allocated copy, and the table at that reference is
exactly the pure transformed copy `clean` of the caller's table, even though
the fills are performed in place on the copy. -/
theorem cleanProg_keeps_caller {hp : List Table} {r : Nat}
    {res : List Table × Nat} (hrun : cleanProg hp r = some res) :
    (∀ i, i < hp.length → res.1[i]? = hp[i]?) ∧
    res.2 = hp.length ∧
    clean (hp.getD r []) = some (res.1.getD res.2 []) := by
  unfold cleanProg at hrun
  split at hrun
  · cases hrun
  · rename_i t1 e1
    rw [getD_concat] at hrun
    split at hrun
    · cases hrun
    · rename_i t2 e2
      rw [set_append_singleton, getD_concat] at hrun
      split at hrun
      · cases hrun
      · rename_i t3 e3
        rw [set_append_singleton, getD_concat] at hrun
        split at hrun
        · cases hrun
        · rename_i t4 e4
          rw [set_append_singleton, getD_concat] at hrun
          split at hrun
          · cases hrun
          · rename_i t5 e5
            rw [set_append_singleton, getD_concat] at hrun
            split at hrun
            · cases hrun
            · rename_i t6 e6
              rw [set_append_singleton] at hrun
              have hres := Option.some_inj.mp hrun
              subst hres
              refine ⟨?_, rfl, ?_⟩
              · intro i hi
                exact List.getElem?_append_left hi
              · rw [clean, e1, Option.some_bind, e2, Option.some_bind, e3,
                  Option.some_bind, e4, Option.some_bind, e5, Option.some_bind,
                  e6, getD_concat]

lemma cleanProg_sample : cleanProg [sampleTable] 0
    = some ([sampleTable, sampleCleaned], 1) := by
  have g0 : ([sampleTable] : List Table).getD 0 [] = sampleTable := rfl
  simp only [cleanProg, g0, sample_step_drop, getD_concat, set_append_singleton,
    sample_step_age, sample_step_embarked, sample_step_sibsp, sample_step_parch,
    sample_step_fare]
  rfl

/-- Witness for claim C7 at the one-cell heap holding the sample table. -/
theorem cleanProg_keeps_caller_witness :
    cleanProg [sampleTable] 0 = some ([sampleTable, sampleCleaned], 1) ∧
    ((∀ i, i < ([sampleTable] : List Table).length →
       ([sampleTable, sampleCleaned] : List Table)[i]? = ([sampleTable] : List Table)[i]?) ∧
     ([sampleTable, sampleCleaned], 1).2 = ([sampleTable] : List Table).length ∧
     clean (([sampleTable] : List Table).getD 0 [])
       = some (([sampleTable, sampleCleaned] : List Table).getD 1 [])) :=
  ⟨cleanProg_sample, cleanProg_keeps_caller cleanProg_sample⟩

end HeapClaims

section ConftestClaims

/-- Claim C8: the decorator marks the test skipped exactly when executing
the import expression raises an exception, and the recorded skip reason
names both the decorated test function and the required dependency. -/
theorem requires_module_spec (f n : String) (outcome : Option String) :
    ((requires_module f n outcome).skip = true ↔ outcome.isSome = true) ∧
    (∃ suffix, (requires_module f n outcome).reason
      = "Test " ++ f ++ " skipped, requires " ++ n ++ "." ++ suffix) := by
  rcases outcome with _ | exc
  · refine ⟨by simp [requires_module], ⟨"", ?_⟩⟩
    simp [requires_module]
  · refine ⟨by simp [requires_module], ?_⟩
    by_cases hc : 0 < exc.length ∧ exc ≠ "No module named " ++ n
    · refine ⟨" Got exception (" ++ exc ++ ")", ?_⟩
      have hdef : (requires_module f n (some exc)).reason
          = if 0 < exc.length ∧ exc ≠ "No module named " ++ n then
              "Test " ++ f ++ " skipped, requires " ++ n ++ "."
                ++ " Got exception (" ++ exc ++ ")"
            else "Test " ++ f ++ " skipped, requires " ++ n ++ "." := rfl
      rw [hdef, if_pos hc,
        String.append_assoc ("Test " ++ f ++ " skipped, requires " ++ n ++ ".")
          " Got exception (" exc,
        String.append_assoc]
    · exact ⟨"", by simp [requires_module, hc]⟩

/-- Claim C9: for positive numbers of matrices and classes, the labels
returned by the fixture have length `n_classes * (n_matrices / n_classes)` —
equal to `n_matrices` exactly when `n_classes` divides `n_matrices` — and
consist of each class label below `n_classes` repeated
`n_matrices / n_classes` times, in non-decreasing order. -/
theorem get_labels_spec (m k : Nat) (_hm : 0 < m) (_hk : 0 < k) :
    (get_labels m k).length = k * (m / k) ∧
    ((get_labels m k).length = m ↔ k ∣ m) ∧
    (∀ i, i < k → (get_labels m k).count i = m / k) ∧
    (∀ x ∈ get_labels m k, x < k) ∧
    (get_labels m k).Sorted (· ≤ ·) := by
  have hlen : (get_labels m k).length = k * (m / k) := by
    rw [get_labels, List.length_flatMap]
    have hmap : (List.range k).map
          (List.length ∘ (fun i => List.replicate (m / k) i))
        = (List.range k).map (fun _ => m / k) :=
      List.map_congr_left (fun i _ => by simp)
    rw [hmap, List.map_const', List.sum_replicate, List.length_range,
      smul_eq_mul]
  refine ⟨hlen, ?_, ?_, ?_, ?_⟩
  · rw [hlen]
    constructor
    · intro h
      exact ⟨m / k, h.symm⟩
    · intro h
      exact Nat.mul_div_cancel' h
  · intro i hi
    rw [get_labels, List.flatMap_def, List.count_flatten, List.map_map]
    have hmap : (List.range k).map
          (List.count i ∘ fun j => List.replicate (m / k) j)
        = (List.range k).map (fun j => if i = j then m / k else 0) := by
      refine List.map_congr_left (fun j _ => ?_)
      simp only [Function.comp_apply, List.count_replicate]
      by_cases hij : i = j
      · simp [hij]
      · have hji : ¬j = i := fun hh => hij hh.symm
        simp [hij, hji]
    rw [hmap, sum_map_ite_of_mem (List.nodup_range k) (List.mem_range.mpr hi)]
  · intro x hx
    rw [get_labels] at hx
    rcases List.mem_flatMap.mp hx with ⟨i, hi, hxi⟩
    rw [List.eq_of_mem_replicate hxi]
    exact List.mem_range.mp hi
  · rw [get_labels, List.flatMap_def]
    refine List.pairwise_flatten.mpr ⟨?_, ?_⟩
    · intro l' hl'
      rcases List.mem_map.mp hl' with ⟨i, _, rfl⟩
      exact List.pairwise_replicate.mpr (Or.inr (le_refl i))
    · rw [List.pairwise_map]
      refine List.Pairwise.imp ?_ (List.sorted_lt_range k)
      intro a b hab x hx y hy
      rw [List.eq_of_mem_replicate hx, List.eq_of_mem_replicate hy]
      exact hab.le

/-- Witness for claim C9 at five matrices and two classes. -/
theorem get_labels_spec_witness :
    (0 < 5 ∧ 0 < 2) ∧
    ((get_labels 5 2).length = 2 * (5 / 2) ∧
     ((get_labels 5 2).length = 5 ↔ 2 ∣ 5) ∧
     (∀ i, i < 2 → (get_labels 5 2).count i = 5 / 2) ∧
     (∀ x ∈ get_labels 5 2, x < 2) ∧
     (get_labels 5 2).Sorted (· ≤ ·)) :=
  ⟨⟨by decide, by decide⟩, get_labels_spec 5 2 (by decide) (by decide)⟩

end ConftestClaims

end Titanic
